import Mathlib

/-!
Verification of the C front-end declaration-model core described in
`spec.md`.  The repository's source tree contains only the C fixture
files that the front-end consumes (example/, examples/, tests/, tmp107/,
tmp107b/); the front-end implementation itself (tokenizer, macro table,
conditional evaluator, declaration parser, type graph builder) is not
among the source files.  Accordingly every operational definition below
is modelled from the specification text, and the concrete inputs used in
theorems are taken from the fixture files the claims cite.
-/

/-- Lexical token kinds (spec section 3, Token). -/
inductive TokKind where
  | ident
  | num
  | str
  | punct
deriving DecidableEq

/-- Modelled from the spec: a lexical token, kind plus literal text
(spec section 3, Token).  Source positions are threaded separately by the
declaration parser as (position, token) pairs. -/
structure Token where
  kind : TokKind
  text : String
deriving DecidableEq

/-- Identifier token. -/
def idT (s : String) : Token := ⟨.ident, s⟩

/-- Punctuator token. -/
def pT (s : String) : Token := ⟨.punct, s⟩

/-- Number token. -/
def numT (s : String) : Token := ⟨.num, s⟩

/-- Modelled from the spec: a macro definition, object-like or
function-like with ordered parameter names and a replacement token
sequence (spec section 3, MacroDefinition).  The stringize and paste
operators are not exercised by any statement proved here. -/
inductive MacroDef where
  | obj (body : List Token)
  | fnLike (params : List String) (body : List Token)
deriving DecidableEq

/-- Modelled from the spec: the macro table, a mapping from macro name to
definition (spec section 4.2). -/
abbrev MacroTable := List (String × MacroDef)

/-- Look a macro name up in the table (first binding wins). -/
def findMac (t : MacroTable) (n : String) : Option MacroDef :=
  List.lookup n t

/-- Names bound in a macro table. -/
def macNames (t : MacroTable) : List String := t.map Prod.fst

/-- Remove every occurrence of a name from a list of names. -/
def dropName : List String → String → List String
  | [], _ => []
  | a :: l, n => if a = n then dropName l n else a :: dropName l n

theorem mem_dropName {gas : List String} {n m : String} :
    m ∈ dropName gas n ↔ m ∈ gas ∧ m ≠ n := by
  induction gas with
  | nil => simp [dropName]
  | cons a l ih =>
    simp only [dropName]
    split
    · next ha =>
      subst ha
      rw [ih]
      simp only [List.mem_cons]
      constructor
      · intro h; exact ⟨Or.inr h.1, h.2⟩
      · rintro ⟨h1 | h1, h2⟩
        · exact absurd h1 h2
        · exact ⟨h1, h2⟩
    · next ha =>
      simp only [List.mem_cons, ih]
      constructor
      · rintro (rfl | ⟨h1, h2⟩)
        · exact ⟨Or.inl rfl, ha⟩
        · exact ⟨Or.inr h1, h2⟩
      · rintro ⟨rfl | h1, h2⟩
        · exact Or.inl rfl
        · exact Or.inr ⟨h1, h2⟩

theorem not_mem_dropName (gas : List String) (n : String) :
    n ∉ dropName gas n := by
  intro h
  exact (mem_dropName.mp h).2 rfl

theorem dropName_length_le (gas : List String) (n : String) :
    (dropName gas n).length ≤ gas.length := by
  induction gas with
  | nil => simp [dropName]
  | cons a l ih =>
    by_cases ha : a = n
    · simp only [dropName, if_pos ha, List.length_cons]
      omega
    · simp only [dropName, if_neg ha, List.length_cons]
      omega

theorem dropName_length_lt {gas : List String} {n : String} (h : n ∈ gas) :
    (dropName gas n).length < gas.length := by
  induction gas with
  | nil => cases h
  | cons a l ih =>
    by_cases ha : a = n
    · have hle := dropName_length_le l n
      simp only [dropName, if_pos ha, List.length_cons]
      omega
    · rcases List.mem_cons.mp h with h1 | h2
      · exact absurd h1.symm ha
      · have := ih h2
        simp only [dropName, if_neg ha, List.length_cons]
        omega

/-- Collect a parenthesised, comma-separated macro-argument list: depth of
nested parentheses, remaining tokens, current argument (reversed), and the
arguments collected so far.  Returns the arguments together with the
tokens after the closing parenthesis (spec section 4.2). -/
def collectArgs : Nat → List Token → List Token → List (List Token) →
    Option (List (List Token) × List Token)
  | _, [], _, _ => none
  | d, tok :: ts, cur, acc =>
    if tok = pT ")" then
      if d = 0 then some (acc ++ [cur.reverse], ts)
      else collectArgs (d - 1) ts (tok :: cur) acc
    else if tok = pT "(" then collectArgs (d + 1) ts (tok :: cur) acc
    else if tok = pT "," ∧ d = 0 then collectArgs d ts [] (acc ++ [cur.reverse])
    else collectArgs d ts (tok :: cur) acc

theorem collectArgs_rest_length :
    ∀ (d : Nat) (ts cur : List Token) (acc args : List (List Token)) (rest : List Token),
      collectArgs d ts cur acc = some (args, rest) → rest.length < ts.length := by
  intro d ts
  induction ts generalizing d with
  | nil => intro cur acc args rest h; simp [collectArgs] at h
  | cons tok ts ih =>
    intro cur acc args rest h
    simp only [collectArgs] at h
    split_ifs at h with h1 h2 h3 h4
    · simp only [Option.some.injEq, Prod.mk.injEq] at h
      obtain ⟨hargs, hrest⟩ := h
      subst hrest
      simp
    · have := ih _ _ _ _ _ h
      simp only [List.length_cons]
      omega
    · have := ih _ _ _ _ _ h
      simp only [List.length_cons]
      omega
    · have := ih _ _ _ _ _ h
      simp only [List.length_cons]
      omega
    · have := ih _ _ _ _ _ h
      simp only [List.length_cons]
      omega

theorem collectArgs_arg_length :
    ∀ (d : Nat) (ts cur : List Token) (acc args : List (List Token)) (rest : List Token),
      collectArgs d ts cur acc = some (args, rest) →
      ∀ a ∈ args, a.length ≤ cur.length + ts.length ∨ a ∈ acc := by
  intro d ts
  induction ts generalizing d with
  | nil => intro cur acc args rest h; simp [collectArgs] at h
  | cons tok ts ih =>
    intro cur acc args rest h a ha
    simp only [collectArgs] at h
    split_ifs at h with h1 h2 h3 h4
    · simp only [Option.some.injEq, Prod.mk.injEq] at h
      obtain ⟨hargs, hrest⟩ := h
      subst hargs
      rcases List.mem_append.mp ha with hac | hcl
      · exact Or.inr hac
      · simp only [List.mem_singleton] at hcl
        subst hcl
        left
        simp only [List.length_reverse, List.length_cons]
        omega
    · rcases ih _ _ _ _ _ h a ha with hl | hr
      · left; simp only [List.length_cons] at hl ⊢; omega
      · exact Or.inr hr
    · rcases ih _ _ _ _ _ h a ha with hl | hr
      · left; simp only [List.length_cons] at hl ⊢; omega
      · exact Or.inr hr
    · rcases ih _ _ _ _ _ h a ha with hl | hr
      · left; simp only [List.length_nil, List.length_cons] at hl ⊢; omega
      · rcases List.mem_append.mp hr with hac | hcl
        · exact Or.inr hac
        · simp only [List.mem_singleton] at hcl
          subst hcl
          left
          simp only [List.length_reverse, List.length_cons]
          omega
    · rcases ih _ _ _ _ _ h a ha with hl | hr
      · left; simp only [List.length_cons] at hl ⊢; omega
      · exact Or.inr hr

/-- Substitute a single body token: a parameter name is replaced by the
corresponding (already expanded) argument token sequence. -/
def substOne (ps : List String) (eargs : List (List Token)) (tok : Token) : List Token :=
  if tok.kind = .ident then
    match (ps.zip eargs).lookup tok.text with
    | some a => a
    | none => [tok]
  else [tok]

/-- Substitute all parameters of a function-like macro body. -/
def substParams (ps : List String) (eargs : List (List Token)) (body : List Token) :
    List Token :=
  (body.map (substOne ps eargs)).flatten

/-- Modelled from the spec: macro expansion (spec section 4.2), rescan with
the standard self-reference guard.  `gas` is the set of macro names still
eligible for expansion along the current path; expanding a name removes it
from the set before the substituted body is rescanned, so a macro name
occurring in its own body (directly or after further expansions) is never
re-expanded.  Function-like invocation requires a parenthesised argument
list of matching arity; argument token sequences are macro-expanded before
substitution.  Totality of this definition (certified by the termination
measure below) is the termination of expansion on every input. -/
def expandWith (t : MacroTable) : List String → List Token → List Token
  | _, [] => []
  | gas, tok :: rest =>
    if hg : tok.kind = .ident ∧ tok.text ∈ gas then
      match findMac t tok.text with
      | some (.obj body) =>
          expandWith t (dropName gas tok.text) body ++ expandWith t gas rest
      | some (.fnLike ps body) =>
          match rest with
          | [] => [tok]
          | lp :: rest2 =>
            if lp = pT "(" then
              match hc : collectArgs 0 rest2 [] [] with
              | some (args, rest3) =>
                if args.length = ps.length then
                  expandWith t (dropName gas tok.text)
                      (substParams ps (args.attach.map (fun a => expandWith t gas a.1)) body)
                    ++ expandWith t gas rest3
                else tok :: expandWith t gas (lp :: rest2)
              | none => tok :: expandWith t gas (lp :: rest2)
            else tok :: expandWith t gas (lp :: rest2)
      | none => tok :: expandWith t gas rest
    else tok :: expandWith t gas rest
termination_by gas toks => (gas.length, toks.length)
decreasing_by
  · exact Prod.Lex.left _ _ (dropName_length_lt hg.2)
  · apply Prod.Lex.right
    simp only [List.length_cons]
    omega
  · apply Prod.Lex.right
    rcases collectArgs_arg_length _ _ _ _ _ _ hc a.1 a.2 with hl | hf
    · simp only [List.length_nil, List.length_cons] at hl ⊢
      omega
    · cases hf
  · exact Prod.Lex.left _ _ (dropName_length_lt hg.2)
  · apply Prod.Lex.right
    have := collectArgs_rest_length _ _ _ _ _ _ hc
    simp only [List.length_cons]
    omega
  · apply Prod.Lex.right
    simp only [List.length_cons]
    omega
  · apply Prod.Lex.right
    simp only [List.length_cons]
    omega
  · apply Prod.Lex.right
    simp only [List.length_cons]
    omega
  · apply Prod.Lex.right
    simp only [List.length_cons]
    omega

/-- Top-level expansion: every name in the table is initially eligible. -/
def expand (t : MacroTable) (toks : List Token) : List Token :=
  expandWith t (macNames t) toks

theorem lookup_mem_keys {α : Type} {l : List (String × α)} {n : String} {v : α}
    (h : List.lookup n l = some v) : n ∈ l.map Prod.fst := by
  induction l with
  | nil => simp [List.lookup] at h
  | cons p l ih =>
    obtain ⟨k, w⟩ := p
    by_cases hk : n = k
    · subst hk; simp
    · rw [List.lookup, show (n == k) = false from beq_eq_false_iff_ne.mpr hk] at h
      simp only [List.map_cons, List.mem_cons]
      exact Or.inr (ih h)

/-- A token stream contains an expandable macro invocation: an identifier
bound as an object-like macro, or an identifier bound as a function-like
macro and immediately followed by an opening parenthesis.  A stream with
no such invocation is fully expanded — the syntactic characterisation of a
fixpoint of `expand`. -/
def hasRedex (t : MacroTable) : List Token → Bool
  | [] => false
  | tok :: rest =>
    (if tok.kind = .ident then
      match findMac t tok.text with
      | some (.obj _) => true
      | some (.fnLike _ _) =>
        match rest with
        | lp :: _ => decide (lp = pT "(")
        | [] => false
      | none => false
    else false) || hasRedex t rest

theorem expandWith_of_no_redex (t : MacroTable) :
    ∀ (toks : List Token) (gas : List String),
      hasRedex t toks = false → expandWith t gas toks = toks := by
  intro toks
  induction toks with
  | nil =>
    intro gas h
    rw [expandWith]
  | cons tok rest ih =>
    intro gas h
    simp only [hasRedex, Bool.or_eq_false_iff] at h
    obtain ⟨h1, h2⟩ := h
    rw [expandWith]
    by_cases hg : tok.kind = .ident ∧ tok.text ∈ gas
    · rw [dif_pos hg]
      rw [if_pos hg.1] at h1
      cases hm : findMac t tok.text with
      | none => simp [ih _ h2]
      | some d =>
        cases d with
        | obj body => rw [hm] at h1; simp at h1
        | fnLike ps body =>
          rw [hm] at h1
          cases rest with
          | nil => simp
          | cons lp rest2 =>
            simp only [decide_eq_false_iff_not] at h1
            simp only [if_neg h1]
            rw [ih _ h2]
    · rw [dif_neg hg]
      rw [ih _ h2]

theorem expandWith_nil (t : MacroTable) (gas : List String) :
    expandWith t gas [] = [] := by
  rw [expandWith]

theorem expandWith_blocked (t : MacroTable) (gas : List String) (tok : Token)
    (rest : List Token) (hb : ¬(tok.kind = .ident ∧ tok.text ∈ gas)) :
    expandWith t gas (tok :: rest) = tok :: expandWith t gas rest := by
  rw [expandWith, dif_neg hb]

/-- The macro table of spec section 8: `#define ADD(a,b) ((a)+(b))`
(the same shape as the fixture macro `MIN` in example/source/sample.h). -/
def addTable : MacroTable :=
  [("ADD", .fnLike ["a", "b"]
    [pT "(", pT "(", idT "a", pT ")", pT "+", pT "(", idT "b", pT ")", pT ")"])]

/-- C4: given `#define ADD(a,b) ((a)+(b))`, expanding the invocation token
sequence `ADD(1,2)` with the macro table's expand operation yields exactly
the token sequence `((1)+(2))`. -/
theorem c4_expand_add :
    expand addTable [idT "ADD", pT "(", numT "1", pT ",", numT "2", pT ")"] =
      [pT "(", pT "(", numT "1", pT ")", pT "+", pT "(", numT "2", pT ")", pT ")"] := by
  simp [expand, expandWith, macNames, addTable, findMac, collectArgs, substParams, substOne,
    List.lookup, idT, pT, numT]

/-- C5: macro expansion is idempotent — applying `expand` to a token
stream that is already fully expanded (no expandable invocation remains,
which characterises the fixpoints of `expand`) returns the same stream,
with no further substitutions. -/
theorem c5_expand_idempotent (t : MacroTable) (s : List Token)
    (h : hasRedex t s = false) : expand t s = s :=
  expandWith_of_no_redex t s (macNames t) h

/-- Witness for C5: the fully expanded result `((1)+(2))` of the C4
round-trip is redex-free, and expanding it again returns it unchanged. -/
theorem c5_expand_idempotent_witness :
    hasRedex addTable
        [pT "(", pT "(", numT "1", pT ")", pT "+", pT "(", numT "2", pT ")", pT ")"] = false ∧
      expand addTable
          [pT "(", pT "(", numT "1", pT ")", pT "+", pT "(", numT "2", pT ")", pT ")"] =
        [pT "(", pT "(", numT "1", pT ")", pT "+", pT "(", numT "2", pT ")", pT ")"] :=
  ⟨by decide, c5_expand_idempotent _ _ (by decide)⟩

theorem expandWith_self_ref (t : MacroTable) (m : String)
    (h : findMac t m = some (.obj [idT m])) :
    ∀ gas, expandWith t gas [idT m] = [idT m] := by
  intro gas
  by_cases hmem : m ∈ gas
  · rw [expandWith, dif_pos (⟨rfl, hmem⟩ : (idT m).kind = .ident ∧ (idT m).text ∈ gas)]
    have h2 : findMac t (idT m).text = some (.obj [idT m]) := h
    rw [h2]
    dsimp only
    rw [expandWith_blocked _ _ _ _ (fun hc => not_mem_dropName gas (idT m).text hc.2)]
    rw [expandWith_nil, expandWith_nil]
    simp
  · rw [expandWith_blocked _ _ _ _ (fun hc => hmem hc.2), expandWith_nil]

/-- C7: macro expansion terminates on every input — `expandWith` is a
total function, certified by its lexicographic termination measure — and
the standard self-reference guard keeps a macro name occurring in its own
body from being re-expanded: for a self-referential definition in the
style of `#define X X`, expansion under every guard state (and in
particular the top-level `expand`) returns the token unchanged instead of
looping. -/
theorem c7_expansion_terminates (t : MacroTable) (m : String)
    (h : findMac t m = some (.obj [idT m])) :
    (∀ gas, expandWith t gas [idT m] = [idT m]) ∧ expand t [idT m] = [idT m] :=
  ⟨expandWith_self_ref t m h, expandWith_self_ref t m h (macNames t)⟩

/-- Witness for C7: the table defining `#define X X` satisfies the
hypothesis, and expanding `X` returns `X`. -/
theorem c7_expansion_terminates_witness :
    findMac [("X", MacroDef.obj [idT "X"])] "X" = some (.obj [idT "X"]) ∧
      expand [("X", MacroDef.obj [idT "X"])] [idT "X"] = [idT "X"] :=
  ⟨by decide, (c7_expansion_terminates [("X", MacroDef.obj [idT "X"])] "X" (by decide)).2⟩

/-- Modelled from the spec: conditional-expression abstract syntax for
`#if`/`#elif` lines (spec section 4.3): integer literals, macro values,
`defined(X)`, logical and comparison operators. -/
inductive CExpr where
  | lit (n : Int)
  | var (x : String)
  | isDef (x : String)
  | notE (e : CExpr)
  | andE (a b : CExpr)
  | orE (a b : CExpr)
  | ltE (a b : CExpr)
  | leE (a b : CExpr)
  | gtE (a b : CExpr)
  | geE (a b : CExpr)
  | eqE (a b : CExpr)
  | neE (a b : CExpr)
  | addE (a b : CExpr)
  | subE (a b : CExpr)
  | mulE (a b : CExpr)

/-- The integer view of the macro table consulted by the conditional
evaluator: macro name to integer value (spec section 4.3). -/
abbrev CondEnv := List (String × Int)

/-- Booleans as C preprocessor integers. -/
def toI (b : Bool) : Int := if b then 1 else 0

/-- Modelled from the spec: conditional-expression evaluation
(spec section 4.3).  `defined(X)` is true whenever `X` is present in the
table, independent of its value; undefined identifiers evaluate to 0;
`&&` and `||` short-circuit. -/
def evalC (env : CondEnv) : CExpr → Int
  | .lit n => n
  | .var x => (List.lookup x env).getD 0
  | .isDef x => toI (List.lookup x env).isSome
  | .notE e => toI (evalC env e = 0)
  | .andE a b => if evalC env a = 0 then 0 else toI (¬ evalC env b = 0)
  | .orE a b => if evalC env a = 0 then toI (¬ evalC env b = 0) else 1
  | .ltE a b => toI (evalC env a < evalC env b)
  | .leE a b => toI (evalC env a ≤ evalC env b)
  | .gtE a b => toI (evalC env b < evalC env a)
  | .geE a b => toI (evalC env b ≤ evalC env a)
  | .eqE a b => toI (evalC env a = evalC env b)
  | .neE a b => toI (¬ evalC env a = evalC env b)
  | .addE a b => evalC env a + evalC env b
  | .subE a b => evalC env a - evalC env b
  | .mulE a b => evalC env a * evalC env b

/-- Modelled from the spec: a ConditionalFrame (spec section 3): whether
the current branch of the open conditional is taken, and whether any
sibling branch of the chain (this one included) has been taken. -/
structure Frame where
  takenNow : Bool
  takenEver : Bool
deriving DecidableEq

/-- A line presented to the conditional evaluator: a content line
(carrying an arbitrary payload, e.g. a declaration) or a directive. -/
inductive CLine (α : Type) where
  | content (a : α)
  | ifL (e : CExpr)
  | elifL (e : CExpr)
  | elseL
  | endifL

/-- A frame stack is active when every open frame is taken. -/
def stackActive (stk : List Frame) : Bool := stk.all (fun f => f.takenNow)

/-- Modelled from the spec: the directive transitions of the conditional
evaluator (spec section 4.3).  `#if` in a skipped region pushes a
skipped-regardless frame without evaluating; `#elif` with a
previously-taken sibling is forced not-taken without evaluation; `#else`
is taken iff no previous sibling branch in the chain was taken; `#endif`
pops.  Content is forwarded iff the stack is active. -/
def condStep {α : Type} (env : CondEnv) (stk : List Frame) :
    CLine α → List Frame × Option α
  | .content a => (stk, if stackActive stk then some a else none)
  | .ifL e =>
    if stackActive stk then
      ((⟨decide (¬ evalC env e = 0), decide (¬ evalC env e = 0)⟩ : Frame) :: stk, none)
    else ((⟨false, true⟩ : Frame) :: stk, none)
  | .elifL e =>
    match stk with
    | [] => ([], none)
    | f :: rest =>
      if f.takenEver then ((⟨false, true⟩ : Frame) :: rest, none)
      else if stackActive rest then
        ((⟨decide (¬ evalC env e = 0), decide (¬ evalC env e = 0)⟩ : Frame) :: rest, none)
      else ((⟨false, false⟩ : Frame) :: rest, none)
  | .elseL =>
    match stk with
    | [] => ([], none)
    | f :: rest => ((⟨!f.takenEver, true⟩ : Frame) :: rest, none)
  | .endifL =>
    match stk with
    | [] => ([], none)
    | _ :: rest => (rest, none)

/-- Run the conditional evaluator from a given frame stack, forwarding
the payloads of the active content lines. -/
def runCondFrom {α : Type} (env : CondEnv) : List Frame → List (CLine α) → List α
  | _, [] => []
  | stk, l :: ls =>
    match condStep env stk l with
    | (stk2, some a) => a :: runCondFrom env stk2 ls
    | (stk2, none) => runCondFrom env stk2 ls

/-- Run the conditional evaluator on a whole line sequence. -/
def runCond {α : Type} (env : CondEnv) (lines : List (CLine α)) : List α :=
  runCondFrom env [] lines

theorem runCondFrom_content_cons {α : Type} (env : CondEnv) (stk : List Frame)
    (x : α) (ls : List (CLine α)) :
    runCondFrom env stk (CLine.content x :: ls) =
      if stackActive stk then x :: runCondFrom env stk ls else runCondFrom env stk ls := by
  rw [runCondFrom, condStep]
  cases h : stackActive stk <;> simp [h]

theorem runCondFrom_content_inactive {α : Type} (env : CondEnv) (stk : List Frame)
    (h : stackActive stk = false) (xs : List α) (rest : List (CLine α)) :
    runCondFrom env stk (xs.map CLine.content ++ rest) = runCondFrom env stk rest := by
  induction xs with
  | nil => simp
  | cons x xs ih =>
    rw [List.map_cons, List.cons_append, runCondFrom_content_cons, if_neg (by simp [h]), ih]

theorem runCondFrom_content_active {α : Type} (env : CondEnv) (stk : List Frame)
    (h : stackActive stk = true) (xs : List α) (rest : List (CLine α)) :
    runCondFrom env stk (xs.map CLine.content ++ rest) = xs ++ runCondFrom env stk rest := by
  induction xs with
  | nil => simp
  | cons x xs ih =>
    rw [List.map_cons, List.cons_append, runCondFrom_content_cons, if_pos h, ih]
    simp

/-- C3: for every input of the shape `#if 0 ... #else ... #endif` the
conditional evaluator forwards only the else branch's content lines: the
else-branch declarations appear in the output and nothing from the
skipped branch does; and in general the `#else` transition takes the
branch iff no previous sibling branch in its chain was taken. -/
theorem c3_else_branch (α : Type) (env : CondEnv) (xs ys : List α) :
    runCond env
        (CLine.ifL (CExpr.lit 0) ::
          (xs.map CLine.content ++
            (CLine.elseL :: (ys.map CLine.content ++ [CLine.endifL])))) = ys ∧
      ∀ (f : Frame) (rest : List Frame),
        (condStep env (f :: rest) (CLine.elseL : CLine α)).1 =
          (⟨!f.takenEver, true⟩ : Frame) :: rest := by
  constructor
  · rw [runCond, runCondFrom]
    have h1 : condStep env [] (CLine.ifL (CExpr.lit 0) : CLine α) =
        ([(⟨false, false⟩ : Frame)], none) := rfl
    rw [h1]
    dsimp only
    rw [runCondFrom_content_inactive env [(⟨false, false⟩ : Frame)] rfl]
    rw [runCondFrom]
    have h2 : condStep env [(⟨false, false⟩ : Frame)] (CLine.elseL : CLine α) =
        ([(⟨true, true⟩ : Frame)], none) := rfl
    rw [h2]
    dsimp only
    rw [runCondFrom_content_active env [(⟨true, true⟩ : Frame)] rfl]
    rw [runCondFrom]
    have h3 : condStep env [(⟨true, true⟩ : Frame)] (CLine.endifL : CLine α) =
        ([], none) := rfl
    rw [h3]
    dsimp only
    rw [runCondFrom]
    simp
  · intro f rest
    rfl

/-- The feature macros defined at the top of example/source/preprocessed.h
(lines 8-11), as the conditional evaluator's integer view. -/
def preprocessedEnv : CondEnv :=
  [("FEATURE_ENABLED", 1), ("DEBUG_MODE", 0), ("MAX_SIZE", 100), ("MIN_SIZE", 10)]

/-- The conditional chain of example/source/preprocessed.h lines 57-76,
with each guarded typedef abstracted to a content line carrying its
name. -/
def preprocessedChain : List (CLine String) :=
  [CLine.ifL (CExpr.andE (CExpr.isDef "FEATURE_ENABLED")
      (CExpr.notE (CExpr.isDef "DEBUG_MODE"))),
   CLine.content "optimized_struct_t",
   CLine.ifL (CExpr.gtE (CExpr.var "MAX_SIZE") (CExpr.lit 50)),
   CLine.content "large_buffer",
   CLine.elseL,
   CLine.content "small_buffer",
   CLine.endifL,
   CLine.elifL (CExpr.isDef "DEBUG_MODE"),
   CLine.content "debug_optimized_t",
   CLine.elseL,
   CLine.content "default_struct_t",
   CLine.endifL]

/-- C10: `defined(X)` is true whenever X is present in the macro table,
even when its value is 0: with DEBUG_MODE defined as 0, the fixture chain
`#if defined(FEATURE_ENABLED) && !defined(DEBUG_MODE)` /
`#elif defined(DEBUG_MODE)` / `#else` activates exactly the `#elif`
branch, so the model contains debug_optimized_t and neither
optimized_struct_t nor default_struct_t. -/
theorem c10_defined_zero :
    List.lookup "DEBUG_MODE" preprocessedEnv = some 0 ∧
      evalC preprocessedEnv (CExpr.isDef "DEBUG_MODE") = 1 ∧
      runCond preprocessedEnv preprocessedChain = ["debug_optimized_t"] := by
  exact ⟨by decide, by decide, by decide⟩

/-- Modelled from the spec: TypeNode (spec section 3), polymorphic over
Primitive, Pointer, Array (optional constant size), FunctionPointer
(params and return), Struct, Union, Enum, Typedef reference and the
Opaque forward-declaration placeholder.  A Struct or Union owns an
ordered field sequence of (name, type) pairs. -/
inductive TypeNode where
  | prim (name : String)
  | pointer (target : TypeNode)
  | arr (size : Option Int) (elem : TypeNode)
  | funPtr (params : List TypeNode) (ret : TypeNode)
  | structT (name : String) (fields : List (String × TypeNode))
  | unionT (name : String) (fields : List (String × TypeNode))
  | enumT (name : String) (consts : List (String × Int))
  | typedefRef (name : String)
  | opaqueT (name : String)

/-- The typedef environment built from the declarations of a run: typedef
name to the TypeNode derived from its declaration, in declaration
order. -/
abbrev TypeEnv := List (String × TypeNode)

/-- Resolution errors of the Type Graph Builder (spec section 4.5):
UnresolvedTypeError and CyclicTypedefError. -/
inductive RErr where
  | unresolved (n : String)
  | cyclic (n : String)
deriving DecidableEq

/-- Modelled from the spec: typedef resolution of the Type Graph Builder
(spec sections 4.5 and 3).  Typedef references are followed to the
underlying TypeNode; array element types are resolved structurally (a
typedef of an array of a typedef names an element type that must itself
resolve); the remaining-names set `gas` makes cyclic typedef chains a
CyclicTypedefError and names never defined an UnresolvedTypeError. -/
def resolveNode (env : TypeEnv) : List String → TypeNode → Except RErr TypeNode
  | gas, .typedefRef m =>
    if h : m ∈ gas then
      match List.lookup m env with
      | none => .error (.unresolved m)
      | some ty2 => resolveNode env (dropName gas m) ty2
    else .error (.cyclic m)
  | gas, .arr sz e => (resolveNode env gas e).map (.arr sz)
  | _, t => .ok t
termination_by gas ty => (gas.length, sizeOf ty)
decreasing_by
  · exact Prod.Lex.left _ _ (dropName_length_lt h)
  · apply Prod.Lex.right
    simp

/-- Names bound in a typedef environment. -/
def typeNames (env : TypeEnv) : List String := env.map Prod.fst

/-- Modelled from the spec: `resolveTypedef(name)` (spec section 4.5). -/
def resolveTypedef (env : TypeEnv) (n : String) : Except RErr TypeNode :=
  resolveNode env (typeNames env) (.typedefRef n)

/-- Nesting depth of array constructors, the structural part of the
resolution measure. -/
def arrDepth : TypeNode → Nat
  | .arr _ e => arrDepth e + 1
  | _ => 0

theorem resolveNode_ref (env : TypeEnv) (gas : List String) (m : String) :
    resolveNode env gas (.typedefRef m) =
      if h : m ∈ gas then
        match List.lookup m env with
        | none => .error (.unresolved m)
        | some ty2 => resolveNode env (dropName gas m) ty2
      else .error (.cyclic m) := by
  rw [resolveNode]

theorem resolveNode_arr (env : TypeEnv) (gas : List String) (sz : Option Int)
    (e : TypeNode) :
    resolveNode env gas (.arr sz e) = (resolveNode env gas e).map (.arr sz) := by
  rw [resolveNode]

theorem resolveNode_leaf (env : TypeEnv) (gas : List String) :
    ∀ node : TypeNode, (∀ m, node ≠ .typedefRef m) → (∀ sz e, node ≠ .arr sz e) →
      resolveNode env gas node = .ok node := by
  intro node h1 h2
  cases node
  all_goals
    first
    | exact absurd rfl (h1 _)
    | exact absurd rfl (h2 _ _)
    | (rw [resolveNode] <;> simp)

theorem dropName_comm (g : List String) (a b : String) :
    dropName (dropName g a) b = dropName (dropName g b) a := by
  induction g with
  | nil => simp [dropName]
  | cons x g ih =>
    by_cases hxa : x = a <;> by_cases hxb : x = b
    · have hab : a = b := hxa.symm.trans hxb
      simp [dropName, hxa, hxb, hab, ih]
    · have hab : ¬ a = b := fun hcon => hxb (hxa.trans hcon)
      simp [dropName, hxa, hxb, hab, ih]
    · have hab : ¬ b = a := fun hcon => hxa (hxb.trans hcon)
      have hab2 : ¬ a = b := fun hcon => hab hcon.symm
      simp [dropName, hxa, hxb, hab, hab2, ih]
    · simp [dropName, hxa, hxb, ih]

theorem resolveNode_drop (env : TypeEnv) (c b : String)
    (hcb : List.lookup c env = some (.typedefRef b)) :
    ∀ (k : Nat) (gas : List String), gas.length ≤ k → b ∉ gas →
      ∀ (node ty : TypeNode), resolveNode env gas node = .ok ty →
        resolveNode env (dropName gas c) node = .ok ty := by
  intro k
  induction k using Nat.strong_induction_on with
  | _ k ih =>
    intro gas hlen hb node ty h
    have href : ∀ (m : String) (ty : TypeNode),
        resolveNode env gas (.typedefRef m) = .ok ty →
        resolveNode env (dropName gas c) (.typedefRef m) = .ok ty := by
      intro m ty h
      rw [resolveNode_ref] at h
      by_cases hm : m ∈ gas
      · rw [dif_pos hm] at h
        cases hlk : List.lookup m env with
        | none => rw [hlk] at h; exact absurd h (by simp)
        | some ty2 =>
          rw [hlk] at h
          dsimp only at h
          by_cases hmc : m = c
          · subst hmc
            rw [hcb] at hlk
            have hty2 : ty2 = .typedefRef b := by
              injection hlk with hlk2
              exact hlk2.symm
            subst hty2
            rw [resolveNode_ref] at h
            have hbno : b ∉ dropName gas m := fun hcon => hb (mem_dropName.mp hcon).1
            rw [dif_neg hbno] at h
            exact absurd h (by simp)
          · rw [resolveNode_ref]
            have hm2 : m ∈ dropName gas c := mem_dropName.mpr ⟨hm, hmc⟩
            rw [dif_pos hm2, hlk, dropName_comm]
            have hlt : (dropName gas m).length < k :=
              Nat.lt_of_lt_of_le (dropName_length_lt hm) hlen
            exact ih (dropName gas m).length hlt (dropName gas m) le_rfl
              (fun hcon => hb (mem_dropName.mp hcon).1) ty2 ty h
      · rw [dif_neg hm] at h
        exact absurd h (by simp)
    have hmain : ∀ (j : Nat) (node ty : TypeNode), arrDepth node ≤ j →
        resolveNode env gas node = .ok ty →
        resolveNode env (dropName gas c) node = .ok ty := by
      intro j
      induction j with
      | zero =>
        intro node ty hd h
        cases node
        case typedefRef m => exact href _ _ h
        case arr sz e => simp [arrDepth] at hd
        all_goals
          rw [resolveNode_leaf env gas _ (by simp) (by simp)] at h
        all_goals
          rw [resolveNode_leaf env (dropName gas c) _ (by simp) (by simp)]
        all_goals exact h
      | succ j ihj =>
        intro node ty hd h
        cases node
        case typedefRef m => exact href _ _ h
        case arr sz e =>
          rw [resolveNode_arr] at h ⊢
          cases he : resolveNode env gas e with
          | error er => rw [he] at h; simp [Except.map] at h
          | ok ty2 =>
            rw [he] at h
            simp only [Except.map] at h
            have hde : arrDepth e ≤ j := by
              simp only [arrDepth] at hd
              omega
            rw [ihj e ty2 hde he]
            simp only [Except.map]
            exact h
        all_goals
          rw [resolveNode_leaf env gas _ (by simp) (by simp)] at h
        all_goals
          rw [resolveNode_leaf env (dropName gas c) _ (by simp) (by simp)]
        all_goals exact h
    exact hmain (arrDepth node) node ty le_rfl h

/-- C8: for a typedef chain (`typedef A B; typedef B C;`), resolving C —
whose alias-of entry is a typedef reference to B — yields the very same
underlying TypeNode as resolving B: the aliased body is shared, never
duplicated, in the finalized model. -/
theorem c8_typedef_chain (env : TypeEnv) (b c : String) (ty : TypeNode)
    (hc : List.lookup c env = some (.typedefRef b))
    (hb : resolveTypedef env b = .ok ty) :
    resolveTypedef env c = .ok ty := by
  have hcmem : c ∈ typeNames env := lookup_mem_keys hc
  rw [resolveTypedef, resolveNode_ref, dif_pos hcmem, hc]
  dsimp only
  rw [resolveTypedef, resolveNode_ref] at hb
  by_cases hbmem : b ∈ typeNames env
  · rw [dif_pos hbmem] at hb
    cases hlb : List.lookup b env with
    | none => rw [hlb] at hb; exact absurd hb (by simp)
    | some ty2 =>
      rw [hlb] at hb
      dsimp only at hb
      by_cases hbc : b = c
      · subst hbc
        rw [hc] at hlb
        have hty2 : ty2 = .typedefRef b := by
          injection hlb with hlb2
          exact hlb2.symm
        subst hty2
        rw [resolveNode_ref, dif_neg (not_mem_dropName (typeNames env) b)] at hb
        exact absurd hb (by simp)
      · rw [resolveNode_ref]
        have hb2 : b ∈ dropName (typeNames env) c := mem_dropName.mpr ⟨hbmem, hbc⟩
        rw [dif_pos hb2, hlb, dropName_comm]
        dsimp only
        exact resolveNode_drop env c b hc (dropName (typeNames env) b).length
          (dropName (typeNames env) b) le_rfl (not_mem_dropName _ _) ty2 ty hb
  · rw [dif_neg hbmem] at hb
    exact absurd hb (by simp)

/-- The typedef chain of examples/use_case_typedef_complex/input/types.h
lines 5 and 12-15: `typedef int Integer; typedef Integer Int32;
typedef Int32 MyInt; typedef MyInt Counter;`. -/
def counterEnv : TypeEnv :=
  [("Integer", .prim "int"),
   ("Int32", .typedefRef "Integer"),
   ("MyInt", .typedefRef "Int32"),
   ("Counter", .typedefRef "MyInt")]

/-- Witness for C8: in the fixture chain, Counter's alias-of entry is a
reference to MyInt, MyInt resolves to the primitive int TypeNode, and by
the theorem Counter resolves to that same TypeNode. -/
theorem c8_typedef_chain_witness :
    List.lookup "Counter" counterEnv = some (.typedefRef "MyInt") ∧
      resolveTypedef counterEnv "MyInt" = .ok (.prim "int") ∧
      resolveTypedef counterEnv "Counter" = .ok (.prim "int") :=
  ⟨rfl, by simp [resolveTypedef, resolveNode, typeNames, counterEnv, dropName, List.lookup],
    c8_typedef_chain counterEnv "MyInt" "Counter" (.prim "int") rfl
      (by simp [resolveTypedef, resolveNode, typeNames, counterEnv, dropName, List.lookup])⟩

/-- A positioned token: source position paired with the token, as the
declaration parser consumes them (spec section 3, Token positions for
diagnostics). -/
abbrev PTok := Nat × Token

/-- Modelled from the spec: a ParseError carries the offending token's
position (spec section 4.4). -/
structure ParseError where
  pos : Nat
deriving DecidableEq

/-- Position of the first token of a list (0 at end of input). -/
def posOf : List PTok → Nat
  | [] => 0
  | (p, _) :: _ => p

/-- Decimal digit value of a character. -/
def decDigit (ch : Char) : Option Nat :=
  if ch = '0' then some 0
  else if ch = '1' then some 1
  else if ch = '2' then some 2
  else if ch = '3' then some 3
  else if ch = '4' then some 4
  else if ch = '5' then some 5
  else if ch = '6' then some 6
  else if ch = '7' then some 7
  else if ch = '8' then some 8
  else if ch = '9' then some 9
  else none

/-- Decimal value of a number token's text. -/
def decNum (s : String) : Option Nat :=
  match s.data with
  | [] => none
  | l =>
    l.foldl (fun acc ch =>
      match acc, decDigit ch with
      | some a, some d => some (a * 10 + d)
      | _, _ => none) (some 0)

/-- Builtin C type-specifier words. -/
def builtinTypes : List String :=
  ["void", "char", "short", "int", "long", "float", "double", "signed",
   "unsigned", "_Bool", "size_t"]

/-- Type qualifier words, skipped by the declaration parser. -/
def isQual (s : String) : Bool := s == "const" || s == "volatile"

/-- Skip leading qualifier tokens. -/
def skipQuals : List PTok → List PTok
  | (p, t) :: ts =>
    if t.kind = .ident ∧ isQual t.text then skipQuals ts else (p, t) :: ts
  | [] => []

/-- Collect a maximal run of builtin type-specifier words. -/
def takeBuiltin : List PTok → List String × List PTok
  | (p, t) :: ts =>
    if t.kind = .ident ∧ t.text ∈ builtinTypes then
      let (ws, r) := takeBuiltin ts
      (t.text :: ws, r)
    else ([], (p, t) :: ts)
  | [] => ([], [])

/-- Count leading `*` tokens. -/
def munchStars : List PTok → Nat × List PTok
  | (p, t) :: ts =>
    if t = pT "*" then
      let (k, r) := munchStars ts
      (k + 1, r)
    else (0, (p, t) :: ts)
  | [] => (0, [])

/-- Modelled from the spec: declarator abstract syntax — the innermost
identifier wrapped by pointer, array and function layers in the order
they apply (spec section 4.4). -/
inductive DeclAST where
  | dname (s : String)
  | dptr (d : DeclAST)
  | darr (d : DeclAST) (size : Option Int)
  | dfun (d : DeclAST) (params : List TypeNode)

/-- Modelled from the spec: resolve a declarator against a base type by
recursively stripping the innermost identifier and building the type
outward — pointer-to, array-of, function-returning (spec section 4.4,
C's declaration-mimics-use rule). -/
def applyD : DeclAST → TypeNode → String × TypeNode
  | .dname s, ty => (s, ty)
  | .dptr d, ty => applyD d (.pointer ty)
  | .darr d sz, ty => applyD d (.arr sz ty)
  | .dfun d ps, ty => applyD d (.funPtr ps ty)

/-- Wrap a declarator in `k` pointer layers. -/
def wrapPtr : Nat → DeclAST → DeclAST
  | 0, d => d
  | k + 1, d => wrapPtr k (.dptr d)

/-- Wrap a type in `k` pointer layers. -/
def applyStars : Nat → TypeNode → TypeNode
  | 0, ty => ty
  | k + 1, ty => applyStars k (.pointer ty)

/-- Parse the base type of a function parameter: builtin words, a
struct/union/enum tag reference, or a typedef name. -/
def parseParamBase : List PTok → Except ParseError (TypeNode × List PTok)
  | [] => .error ⟨0⟩
  | (p, t) :: ts =>
    if t.kind = .ident then
      if t.text = "struct" ∨ t.text = "union" ∨ t.text = "enum" then
        match ts with
        | (p2, t2) :: ts2 =>
          if t2.kind = .ident then .ok (.opaqueT t2.text, ts2) else .error ⟨p2⟩
        | [] => .error ⟨p⟩
      else if t.text ∈ builtinTypes then
        match takeBuiltin ((p, t) :: ts) with
        | (ws, r) => .ok (.prim (String.intercalate " " ws), r)
      else .ok (.typedefRef t.text, ts)
    else .error ⟨p⟩

/-- Parse one function parameter: qualifiers, base type, pointer stars,
and an optional parameter name. -/
def parseParam (toks : List PTok) : Except ParseError (TypeNode × List PTok) := do
  let (base, r1) ← parseParamBase (skipQuals toks)
  let (k, r2) := munchStars (skipQuals r1)
  match r2 with
  | (_, t) :: ts =>
    if t.kind = .ident then return (applyStars k base, ts)
    else return (applyStars k base, r2)
  | [] => return (applyStars k base, [])

/-- Parse a parenthesised parameter list, positioned just after the
opening parenthesis; returns the parameter types and the tokens after
the closing parenthesis. -/
def parseParams : Nat → List PTok → Except ParseError (List TypeNode × List PTok)
  | 0, ts => .error ⟨posOf ts⟩
  | fuel + 1, toks =>
    match toks with
    | (_, t) :: ts =>
      if t = pT ")" then .ok ([], ts)
      else do
        let (ty, r) ← parseParam toks
        match r with
        | (p2, t2) :: r2 =>
          if t2 = pT "," then do
            let (tys, r3) ← parseParams fuel r2
            return (ty :: tys, r3)
          else if t2 = pT ")" then return ([ty], r2)
          else .error ⟨p2⟩
        | [] => .error ⟨0⟩
    | [] => .error ⟨0⟩

/-- Parse an array-size suffix, positioned just after the opening
bracket: an empty size, a number, or an identifier looked up among the
known integer constants (enum constants and feature macros). -/
def parseArrSize (cenv : List (String × Int)) :
    List PTok → Except ParseError (Option Int × List PTok)
  | (p, t) :: ts =>
    if t = pT "]" then .ok (none, ts)
    else if t.kind = .num then
      match decNum t.text with
      | some n =>
        match ts with
        | (p2, t2) :: ts2 =>
          if t2 = pT "]" then .ok (some (Int.ofNat n), ts2) else .error ⟨p2⟩
        | [] => .error ⟨p⟩
      | none => .error ⟨p⟩
    else if t.kind = .ident then
      match List.lookup t.text cenv with
      | some v =>
        match ts with
        | (p2, t2) :: ts2 =>
          if t2 = pT "]" then .ok (some v, ts2) else .error ⟨p2⟩
        | [] => .error ⟨p⟩
      | none => .error ⟨p⟩
    else .error ⟨p⟩
  | [] => .error ⟨0⟩

/-- Parse the suffixes of a direct declarator: `(params)` function
layers and `[size]` array layers, applied left to right. -/
def parseSuffixes (cenv : List (String × Int)) :
    Nat → DeclAST → List PTok → Except ParseError (DeclAST × List PTok)
  | 0, _, ts => .error ⟨posOf ts⟩
  | fuel + 1, d, toks =>
    match toks with
    | (_, t) :: ts =>
      if t = pT "(" then do
        let (ps, r) ← parseParams (ts.length + 1) ts
        parseSuffixes cenv fuel (.dfun d ps) r
      else if t = pT "[" then do
        let (sz, r) ← parseArrSize cenv ts
        parseSuffixes cenv fuel (.darr d sz) r
      else .ok (d, toks)
    | [] => .ok (d, [])

/-- Modelled from the spec: recursive-descent declarator parsing
(spec section 4.4): leading stars, then a direct declarator — the
innermost identifier or a parenthesised declarator — then array and
function suffixes; pointers bind outside the suffixed direct
declarator. -/
def parseDeclarator (cenv : List (String × Int)) :
    Nat → List PTok → Except ParseError (DeclAST × List PTok)
  | 0, ts => .error ⟨posOf ts⟩
  | fuel + 1, toks => do
    let (k, r1) := munchStars toks
    let (d, r2) ←
      (match r1 with
      | (p, t) :: ts =>
        if t = pT "(" then do
          let (d, r) ← parseDeclarator cenv fuel ts
          match r with
          | (p2, t2) :: r3 =>
            if t2 = pT ")" then pure (d, r3) else Except.error ⟨p2⟩
          | [] => Except.error ⟨p⟩
        else if t.kind = .ident then pure (DeclAST.dname t.text, ts)
        else Except.error ⟨p⟩
      | [] => Except.error ⟨0⟩ : Except ParseError (DeclAST × List PTok))
    let (d2, r4) ← parseSuffixes cenv (r2.length + 1) d r2
    return (wrapPtr k d2, r4)

/-- Parse an enumerator's explicit value: a number or a negated
number. -/
def parseEnumVal : List PTok → Option (Int × List PTok)
  | (_, t) :: ts =>
    if t.kind = .num then (decNum t.text).map (fun n => ((Int.ofNat n : Int), ts))
    else if t = pT "-" then
      match ts with
      | (_, t2) :: ts2 =>
        if t2.kind = .num then (decNum t2.text).map (fun n => ((-(Int.ofNat n) : Int), ts2))
        else none
      | [] => none
    else none
  | [] => none

/-- Parse enum body items, positioned just after the opening brace:
identifiers with optional explicit values; unspecified values increment
from the previous, starting at 0 (spec section 4.4). -/
def parseEnumItems (cenv : List (String × Int)) :
    Nat → Int → List (String × Int) → List PTok →
    Except ParseError (List (String × Int) × List PTok)
  | 0, _, _, ts => .error ⟨posOf ts⟩
  | fuel + 1, next, acc, toks =>
    match toks with
    | (p, t) :: ts =>
      if t = pT "\x7d" then .ok (acc.reverse, ts)
      else if t.kind = .ident then
        match ts with
        | (p2, t2) :: ts2 =>
          if t2 = pT "=" then
            match parseEnumVal ts2 with
            | some (v, r) =>
              (match r with
              | (p3, t3) :: r3 =>
                if t3 = pT "," then
                  parseEnumItems cenv fuel (v + 1) ((t.text, v) :: acc) r3
                else if t3 = pT "\x7d" then .ok (((t.text, v) :: acc).reverse, r3)
                else .error ⟨p3⟩
              | [] => .error ⟨p2⟩)
            | none => .error ⟨p2⟩
          else if t2 = pT "," then
            parseEnumItems cenv fuel (next + 1) ((t.text, next) :: acc) ts2
          else if t2 = pT "\x7d" then .ok (((t.text, next) :: acc).reverse, ts2)
          else .error ⟨p2⟩
        | [] => .error ⟨p⟩
      else .error ⟨p⟩
    | [] => .error ⟨0⟩

/-- Modelled from the spec: the type-specifier part of a declaration
(spec section 4.4): qualifiers, then builtin type words, a struct/union
tag reference, an enum (tagged or anonymous, with or without a body), or
a typedef name. -/
def parseTypeSpec (cenv : List (String × Int)) :
    List PTok → Except ParseError (TypeNode × List PTok) := fun toks0 =>
  match skipQuals toks0 with
  | (p, t) :: ts =>
    if t.kind = .ident then
      if t.text = "struct" ∨ t.text = "union" then
        match ts with
        | (p2, t2) :: ts2 =>
          if t2.kind = .ident then .ok (.opaqueT t2.text, ts2) else .error ⟨p2⟩
        | [] => .error ⟨p⟩
      else if t.text = "enum" then
        match ts with
        | (p2, t2) :: ts2 =>
          if t2 = pT "\x7b" then do
            let (cs, r) ← parseEnumItems cenv (ts2.length + 1) 0 [] ts2
            return (.enumT "" cs, r)
          else if t2.kind = .ident then
            match ts2 with
            | (p3, t3) :: ts3 =>
              if t3 = pT "\x7b" then do
                let (cs, r) ← parseEnumItems cenv (ts3.length + 1) 0 [] ts3
                return (.enumT t2.text cs, r)
              else .ok (.opaqueT t2.text, ts2)
            | [] => .ok (.opaqueT t2.text, ts2)
          else .error ⟨p2⟩
        | [] => .error ⟨p⟩
      else if t.text ∈ builtinTypes then
        match takeBuiltin ((p, t) :: ts) with
        | (ws, r) => .ok (.prim (String.intercalate " " ws), r)
      else .ok (.typedefRef t.text, ts)
    else .error ⟨p⟩
  | [] => .error ⟨0⟩

/-- Modelled from the spec: a top-level Declaration (spec section 3),
restricted to the classified kinds the statements proved here exercise:
typedefs and plain declarations (globals and prototypes). -/
inductive Decl where
  | typedefD (name : String) (ty : TypeNode)
  | varD (name : String) (ty : TypeNode)

/-- Modelled from the spec: parse one top-level statement (already
delimited) into a Declaration, classifying by the leading token
(spec section 4.4 and the tagged-variant classification of section 9);
a grammar violation yields a ParseError carrying the offending token's
position. -/
def parseDecl (cenv : List (String × Int)) (stmt : List PTok) :
    Except ParseError Decl :=
  match stmt with
  | (_, t) :: ts =>
    if t = idT "typedef" then do
      let (base, r1) ← parseTypeSpec cenv ts
      let (d, r2) ← parseDeclarator cenv (r1.length + 1) r1
      match r2 with
      | [] =>
        match applyD d base with
        | (name, ty) => return Decl.typedefD name ty
      | (p2, _) :: _ => .error ⟨p2⟩
    else do
      let (base, r1) ← parseTypeSpec cenv stmt
      let (d, r2) ← parseDeclarator cenv (r1.length + 1) r1
      match r2 with
      | [] =>
        match applyD d base with
        | (name, ty) => return Decl.varD name ty
      | (p2, _) :: _ => .error ⟨p2⟩
  | [] => .error ⟨0⟩

/-- C1: for `typedef int (*(*f)(int))(double);` the declaration parser
and type graph builder produce for `f` exactly the TypeNode graph
Pointer to FunctionPointer(params=[int]) returning Pointer to
FunctionPointer(params=[double]) returning int, built by recursively
stripping the innermost identifier and building the type outward
(`applyD` over the parsed declarator).  The same declarator shape is the
fixture typedef complex_func_ptr_t of example/source/complex.h line 90. -/
theorem c1_function_pointer_typedef :
    parseDecl []
      [(0, idT "typedef"), (1, idT "int"), (2, pT "("), (3, pT "*"), (4, pT "("),
       (5, pT "*"), (6, idT "f"), (7, pT ")"), (8, pT "("), (9, idT "int"),
       (10, pT ")"), (11, pT ")"), (12, pT "("), (13, idT "double"), (14, pT ")")] =
    .ok (.typedefD "f"
      (.pointer (.funPtr [.prim "int"]
        (.pointer (.funPtr [.prim "double"] (.prim "int")))))) := by
  rfl

/-- The typedef environment obtained by parsing
`typedef RetT (*Arr_t)(ArgT); typedef Arr_t Table_t[3];`. -/
def arrTableEnv : TypeEnv :=
  [("Arr_t", .pointer (.funPtr [.typedefRef "ArgT"] (.typedefRef "RetT"))),
   ("Table_t", .arr (some 3) (.typedefRef "Arr_t"))]

/-- The enum constants of processor_module_enum_t
(example/source/complex.h lines 171-176). -/
def procCfgConsts : List (String × Int) :=
  [("PROCESSOR_CFG_MODULE_COUNT", 3), ("PROCESSOR_CFG_MODULE_ADAPTER", 0),
   ("PROCESSOR_CFG_MODULE_SERVICE", 1), ("PROCESSOR_CFG_MODULE_HARDWARE", 2)]

/-- The typedef environment of the complex.h fixture chain
(lines 178-189): Std_ReturnType, Process_Cfg_Process_fct and the const
array Process_Cfg_Process_acpfct_t. -/
def procCfgEnv : TypeEnv :=
  [("Std_ReturnType", .prim "int"),
   ("Process_Cfg_Process_fct",
     .pointer (.funPtr [.pointer (.typedefRef "Process_T")]
       (.typedefRef "Std_ReturnType"))),
   ("Process_Cfg_Process_acpfct_t",
     .arr (some 3) (.typedefRef "Process_Cfg_Process_fct"))]

/-- C9: parsing `typedef RetT (*Arr_t)(ArgT); typedef Arr_t Table_t[3];`
and resolving Table_t yields Array(size=3) whose element type is Pointer
to FunctionPointer; and in the complex.h fixture the enum constant
PROCESSOR_CFG_MODULE_COUNT = 3 parsed from processor_module_enum_t
serves as the array bound of Process_Cfg_Process_acpfct_t, which
resolves the same way. -/
theorem c9_array_of_function_pointers :
    parseDecl []
        [(0, idT "typedef"), (1, idT "RetT"), (2, pT "("), (3, pT "*"),
         (4, idT "Arr_t"), (5, pT ")"), (6, pT "("), (7, idT "ArgT"), (8, pT ")")] =
      .ok (.typedefD "Arr_t"
        (.pointer (.funPtr [.typedefRef "ArgT"] (.typedefRef "RetT")))) ∧
    parseDecl []
        [(0, idT "typedef"), (1, idT "Arr_t"), (2, idT "Table_t"), (3, pT "["),
         (4, numT "3"), (5, pT "]")] =
      .ok (.typedefD "Table_t" (.arr (some 3) (.typedefRef "Arr_t"))) ∧
    resolveTypedef arrTableEnv "Table_t" =
      .ok (.arr (some 3)
        (.pointer (.funPtr [.typedefRef "ArgT"] (.typedefRef "RetT")))) ∧
    parseDecl []
        [(0, idT "typedef"), (1, idT "enum"), (2, pT "\x7b"),
         (3, idT "PROCESSOR_CFG_MODULE_COUNT"), (4, pT "="), (5, numT "3"), (6, pT ","),
         (7, idT "PROCESSOR_CFG_MODULE_ADAPTER"), (8, pT "="), (9, numT "0"), (10, pT ","),
         (11, idT "PROCESSOR_CFG_MODULE_SERVICE"), (12, pT "="), (13, numT "1"), (14, pT ","),
         (15, idT "PROCESSOR_CFG_MODULE_HARDWARE"), (16, pT "="), (17, numT "2"),
         (18, pT "\x7d"), (19, idT "processor_module_enum_t")] =
      .ok (.typedefD "processor_module_enum_t" (.enumT "" procCfgConsts)) ∧
    parseDecl procCfgConsts
        [(0, idT "typedef"), (1, idT "Process_Cfg_Process_fct"),
         (2, idT "Process_Cfg_Process_acpfct_t"), (3, pT "["),
         (4, idT "PROCESSOR_CFG_MODULE_COUNT"), (5, pT "]")] =
      .ok (.typedefD "Process_Cfg_Process_acpfct_t"
        (.arr (some 3) (.typedefRef "Process_Cfg_Process_fct"))) ∧
    resolveTypedef procCfgEnv "Process_Cfg_Process_acpfct_t" =
      .ok (.arr (some 3)
        (.pointer (.funPtr [.pointer (.typedefRef "Process_T")]
          (.typedefRef "Std_ReturnType")))) := by
  refine ⟨rfl, rfl, ?_, rfl, rfl, ?_⟩
  · simp [resolveTypedef, resolveNode, typeNames, arrTableEnv, dropName, List.lookup,
      Except.map]
  · simp [resolveTypedef, resolveNode, typeNames, procCfgEnv, dropName, List.lookup,
      Except.map]

/-- Brace-depth update for the statement splitter. -/
def bumpDepth (t : Token) (d : Nat) : Nat :=
  if t = pT "\x7b" then d + 1 else if t = pT "\x7d" then d - 1 else d

/-- Modelled from the spec: the recovery skip of the declaration parser
(spec section 4.4): advance to the next top-level `;`, tracking brace
depth so matched brace groups are passed over; returns the statement's
tokens and the tokens after the terminating semicolon. -/
def takeStmt : Nat → List PTok → List PTok × List PTok
  | _, [] => ([], [])
  | d, (p, t) :: ts =>
    if t = pT ";" ∧ d = 0 then ([], ts)
    else
      ((p, t) :: (takeStmt (bumpDepth t d) ts).1, (takeStmt (bumpDepth t d) ts).2)

theorem takeStmt_rest_le :
    ∀ (d : Nat) (x : PTok) (ts : List PTok),
      (takeStmt d (x :: ts)).2.length ≤ ts.length := by
  intro d x ts
  induction ts generalizing d x with
  | nil =>
    obtain ⟨p, t⟩ := x
    simp only [takeStmt]
    split_ifs <;> simp [takeStmt]
  | cons y ts ih =>
    obtain ⟨p, t⟩ := x
    rw [takeStmt]
    split_ifs with h1
    · simp
    · dsimp only
      have := ih (bumpDepth t d) y
      simp only [List.length_cons]
      omega

/-- Split a token stream into top-level statements at top-level
semicolons. -/
def splitStmts (toks : List PTok) : List (List PTok) :=
  match toks with
  | [] => []
  | x :: ts => (takeStmt 0 (x :: ts)).1 :: splitStmts (takeStmt 0 (x :: ts)).2
termination_by toks.length
decreasing_by
  have := takeStmt_rest_le 0 x ts
  simp only [List.length_cons]
  omega

/-- Modelled from the spec: the top-level parse loop with partial-failure
semantics (spec sections 4.4 and 7): each statement is parsed
independently; a success contributes its Declaration, a failure
contributes its ParseError, and parsing continues with the next
statement — one malformed declaration never aborts the rest of the
file. -/
def parseStmts (cenv : List (String × Int)) :
    List (List PTok) → List Decl × List ParseError
  | [] => ([], [])
  | s :: ss =>
    if s = [] then parseStmts cenv ss
    else
      match parseDecl cenv s with
      | .ok d => (d :: (parseStmts cenv ss).1, (parseStmts cenv ss).2)
      | .error e => ((parseStmts cenv ss).1, e :: (parseStmts cenv ss).2)

/-- Parse a whole file: split into top-level statements, then parse each,
collecting declarations and diagnostics. -/
def parseFile (cenv : List (String × Int)) (toks : List PTok) :
    List Decl × List ParseError :=
  parseStmts cenv (splitStmts toks)

/-- A statement's tokens contain no semicolon and no braces, so the
splitter passes over them without ending or nesting. -/
def plainStmt (s : List PTok) : Prop :=
  ∀ x ∈ s, x.2 ≠ pT ";" ∧ x.2 ≠ pT "\x7b" ∧ x.2 ≠ pT "\x7d"

theorem takeStmt_plain (s : List PTok) (hp : plainStmt s) (p : Nat)
    (rest : List PTok) :
    takeStmt 0 (s ++ (p, pT ";") :: rest) = (s, rest) := by
  induction s with
  | nil => simp [takeStmt]
  | cons x s ih =>
    obtain ⟨q, t⟩ := x
    have hx := hp (q, t) (by simp)
    have hs : plainStmt s := fun y hy => hp y (by simp [hy])
    have hd : bumpDepth t 0 = 0 := by
      rw [bumpDepth, if_neg hx.2.1, if_neg hx.2.2]
    simp only [List.cons_append, takeStmt, List.append_eq]
    rw [if_neg (by simp [hx.1]), hd, ih hs]

theorem splitStmts_cons (x : PTok) (ts : List PTok) :
    splitStmts (x :: ts) =
      (takeStmt 0 (x :: ts)).1 :: splitStmts (takeStmt 0 (x :: ts)).2 := by
  rw [splitStmts]

theorem splitStmts_plain (s : List PTok) (hp : plainStmt s) (p : Nat)
    (rest : List PTok) :
    splitStmts (s ++ (p, pT ";") :: rest) = s :: splitStmts rest := by
  cases s with
  | nil =>
    rw [List.nil_append, splitStmts_cons]
    have ht : takeStmt 0 ((p, pT ";") :: rest) = ([], rest) := by
      simp [takeStmt]
    rw [ht]
  | cons x s =>
    rw [List.cons_append, splitStmts_cons]
    have ht := takeStmt_plain (x :: s) hp p rest
    rw [List.cons_append] at ht
    rw [ht]

/-- C6: a file with exactly one syntactically broken top-level
declaration between two valid ones parses to a model containing both
valid declarations plus exactly one ParseError: the parser raises a
ParseError carrying the offending token's position, skips to the next
top-level `;`, and continues, so one malformed declaration never aborts
parsing of the rest of the file. -/
theorem c6_parse_error_recovery (cenv : List (String × Int))
    (s1 sb s2 : List PTok) (p1 p2 p3 : Nat) (d1 d2 : Decl) (e : ParseError)
    (h1 : parseDecl cenv s1 = .ok d1)
    (hb : parseDecl cenv sb = .error e)
    (h2 : parseDecl cenv s2 = .ok d2)
    (hp1 : plainStmt s1) (hpb : plainStmt sb) (hp2 : plainStmt s2)
    (hn1 : s1 ≠ []) (hnb : sb ≠ []) (hn2 : s2 ≠ []) :
    parseFile cenv
        (s1 ++ (p1, pT ";") :: (sb ++ (p2, pT ";") :: (s2 ++ [(p3, pT ";")]))) =
      ([d1, d2], [e]) := by
  rw [parseFile, splitStmts_plain s1 hp1, splitStmts_plain sb hpb,
    splitStmts_plain s2 hp2]
  have hnil : splitStmts ([] : List PTok) = [] := by rw [splitStmts]
  rw [hnil]
  rw [parseStmts, if_neg hn1, h1]
  dsimp only
  rw [parseStmts, if_neg hnb, hb]
  dsimp only
  rw [parseStmts, if_neg hn2, h2]
  dsimp only
  rw [parseStmts]

/-- First valid statement of the C6 witness file: `typedef int MyInt`. -/
def c6s1 : List PTok := [(0, idT "typedef"), (1, idT "int"), (2, idT "MyInt")]

/-- The broken statement of the C6 witness file: a stray `)`. -/
def c6sb : List PTok := [(4, pT ")")]

/-- Second valid statement of the C6 witness file:
`typedef float MyFloat`. -/
def c6s2 : List PTok := [(6, idT "typedef"), (7, idT "float"), (8, idT "MyFloat")]

/-- Witness for C6: the concrete file
`typedef int MyInt; ) ; typedef float MyFloat;` parses to both valid
typedefs plus exactly one ParseError at the stray token's position. -/
theorem c6_parse_error_recovery_witness :
    parseDecl [] c6s1 = .ok (.typedefD "MyInt" (.prim "int")) ∧
    parseDecl [] c6sb = .error ⟨4⟩ ∧
    parseDecl [] c6s2 = .ok (.typedefD "MyFloat" (.prim "float")) ∧
    parseFile []
        (c6s1 ++ (3, pT ";") :: (c6sb ++ (5, pT ";") :: (c6s2 ++ [(9, pT ";")]))) =
      ([Decl.typedefD "MyInt" (.prim "int"), Decl.typedefD "MyFloat" (.prim "float")],
        [⟨4⟩]) :=
  ⟨rfl, rfl, rfl,
    c6_parse_error_recovery [] c6s1 c6sb c6s2 3 5 9 _ _ _ rfl rfl rfl
      (by unfold plainStmt; decide) (by unfold plainStmt; decide)
      (by unfold plainStmt; decide) (by decide) (by decide) (by decide)⟩

/-- Longest string length in a list. -/
def maxLen (l : List String) : Nat := l.foldr (fun s m => max s.length m) 0

theorem le_maxLen : ∀ (l : List String) (s : String), s ∈ l → s.length ≤ maxLen l := by
  intro l
  induction l with
  | nil => intro s h; cases h
  | cons a l ih =>
    intro s h
    rcases List.mem_cons.mp h with rfl | h2
    · exact Nat.le_max_left _ _
    · exact Nat.le_trans (ih s h2) (Nat.le_max_right _ _)

/-- Modelled from the spec: freshness enforcement of synthesized names
(spec section 4.4): a candidate that would collide with an
already-assigned name in the same scope is disambiguated by extending it
until it is unused. -/
def freshen (used : List String) (cand : String) : String :=
  if h : cand ∈ used then freshen used (cand ++ "_") else cand
termination_by maxLen used + 1 - cand.length
decreasing_by
  have h1 : cand.length ≤ maxLen used := le_maxLen used cand h
  have h3 : ("_" : String).length = 1 := rfl
  have h2 : (cand ++ "_").length = cand.length + 1 := by
    rw [String.length_append, h3]
  omega

theorem freshen_not_mem : ∀ (used : List String) (cand : String),
    freshen used cand ∉ used := by
  intro used cand
  refine freshen.induct used (fun c => freshen used c ∉ used) ?_ ?_ cand
  · intro x hx ih
    rw [freshen, dif_pos hx]
    exact ih
  · intro x hx
    rw [freshen, dif_neg hx]
    exact hx

/-- Assign each candidate a fresh name, in declaration order,
remembering the names already assigned in the scope. -/
def synthGo (used : List String) : List String → List String
  | [] => []
  | c :: cs => freshen used c :: synthGo (freshen used c :: used) cs

theorem synthGo_fresh :
    ∀ (cs used : List String),
      (synthGo used cs).Nodup ∧ ∀ x ∈ synthGo used cs, x ∉ used := by
  intro cs
  induction cs with
  | nil => intro used; simp [synthGo]
  | cons c cs ih =>
    intro used
    obtain ⟨hnd, hni⟩ := ih (freshen used c :: used)
    constructor
    · simp only [synthGo]
      refine List.nodup_cons.mpr ⟨?_, hnd⟩
      intro hmem
      exact hni _ hmem (List.mem_cons_self _ _)
    · intro x hx
      simp only [synthGo, List.mem_cons] at hx
      rcases hx with rfl | hx2
      · exact freshen_not_mem used c
      · intro hxu
        exact hni x hx2 (List.mem_cons_of_mem _ hxu)

/-- Modelled from the spec: the base synthesized name of an anonymous
aggregate — the enclosing declaration name concatenated with the field
name the aggregate is bound to, or the enclosing name alone for an
unnamed member (spec section 4.4). -/
def anonBase (enclosing : String) : Option String → String
  | some f => enclosing ++ "_" ++ f
  | none => enclosing

/-- Modelled from the spec: candidate names with `_1`, `_2` ordinals in
declaration order for anonymous aggregates whose base names would
otherwise collide at the same nesting path (spec section 4.4). -/
def candNames (bases : List String) : List String :=
  (bases.enum).map (fun ib =>
    if bases.count ib.2 > 1 then
      ib.2 ++ "_" ++ toString (1 + (bases.take ib.1).count ib.2)
    else ib.2)

/-- Modelled from the spec: deterministic synthesized names for the
anonymous aggregates of one enclosing scope, from the enclosing
declaration name and, per aggregate, the optional field name it is
bound to (spec section 4.4). -/
def synthNames (enclosing : String) (fields : List (Option String)) : List String :=
  synthGo [] (candNames (fields.map (anonBase enclosing)))

/-- C2: within any enclosing scope the synthesized names of anonymous
aggregates are pairwise distinct; synthesis is deterministic — the same
input yields the same names on any two runs of the pure synthesis
function; and two colliding unnamed siblings (the shape of
tmp107b/anonymous_fields.c's container_t) receive the `_1`, `_2`
ordinals in declaration order. -/
theorem c2_anonymous_names (enclosing : String) (fields : List (Option String)) :
    (synthNames enclosing fields).Nodup ∧
    synthNames enclosing fields = synthNames enclosing fields ∧
    synthNames "container_t" [none, none] = ["container_t_1", "container_t_2"] := by
  refine ⟨(synthGo_fresh _ _).1, rfl, ?_⟩
  have hc : candNames (List.map (anonBase "container_t") [none, none]) =
      ["container_t_1", "container_t_2"] := rfl
  rw [synthNames, hc]
  have hf1 : freshen [] "container_t_1" = "container_t_1" := by
    rw [freshen, dif_neg (by simp)]
  have hf2 : freshen ["container_t_1"] "container_t_2" = "container_t_2" := by
    rw [freshen, dif_neg (by decide)]
  rw [synthGo, hf1, synthGo, hf2, synthGo]
